import Mathlib

/-!
# Verification of the `raggio` software rasterizer core

Shallow embedding of the repository's rasterization core:

* `src/math.rs` — generic 2-D vector math, triangle area / bounding
  rectangle / point-containment (`min`, `max`, `Vector2`, `Rectangle2D`,
  `Triangle2D`).
* `src/lib.rs` — the `Pixel` color value and `TriangleVertices`.
* `src/swap_chain.rs` — the swap chain: pixel-buffer lifecycle (`new`,
  `clear`, `resize_with_clear_color`) and the rasterization entry point
  (`draw_rasterized`) together with its private helpers
  (`is_point_inside`, `set_pixel`, `vertex_to_pixel_position`).

Modelling conventions:

* Rust `i32` pixel coordinates are embedded as `ℤ` and `usize` quantities
  as `ℕ`; the `as usize` reinterpreting cast in `set_pixel` and the
  wrapping `usize` index arithmetic are kept explicit via `% 2 ^ 64`
  (that is where overflow could matter).  Extents originate from `u32`
  window sizes, so well-formed swap chains carry `width, height < 2 ^ 32`.
* Rust `f32` NDC coordinates are embedded as `ℚ` with exact arithmetic;
  `f32::round` (round half away from zero) is `roundHalfAway`.
* The fallible operations (`set_pixel`'s slice indexing panics when out
  of bounds) return `Option`; a `none` result models a panic.
* The fragment shader is a `&dyn` trait object whose `run(&self)` may
  observably differ between invocations (interior mutability), so it is
  embedded as a pure function `ℕ → Pixel` of the invocation counter,
  threaded through the rasterizer in program order.  The vertex shader's
  result is only used through the returned position, so it is embedded as
  a pure function.  The `println!` in `draw_rasterized` is pure I/O noise
  and has no embedded counterpart.
-/

namespace Raggio

/-- `min` from `src/math.rs` (branch on `lhs < rhs`). -/
def min {α : Type} [LinearOrder α] (lhs rhs : α) : α :=
  if lhs < rhs then lhs else rhs

/-- `max` from `src/math.rs` (branch on `lhs > rhs`). -/
def max {α : Type} [LinearOrder α] (lhs rhs : α) : α :=
  if lhs > rhs then lhs else rhs

/-- `Vector2<T>` from `src/math.rs`. -/
structure Vector2 (α : Type) where
  x : α
  y : α
deriving DecidableEq, Repr

/-- `Vector2::new` from `src/math.rs`. -/
def Vector2.new {α : Type} (x y : α) : Vector2 α := ⟨x, y⟩

/-- `Rectangle2D<T>` from `src/math.rs`. -/
structure Rectangle2D (α : Type) where
  lefttopmost : Vector2 α
  rightbottommost : Vector2 α
deriving DecidableEq, Repr

/-- Rust's half-open `Range` type (`start..end`); the `end` field is named
`stop` because `end` is a Lean keyword. -/
structure RustRange (α : Type) where
  start : α
  stop : α
deriving DecidableEq, Repr

/-- `Rectangle2D::x` from `src/math.rs`. -/
def Rectangle2D.x {α : Type} (r : Rectangle2D α) : α := r.lefttopmost.x

/-- `Rectangle2D::x_range` from `src/math.rs` (half-open). -/
def Rectangle2D.x_range {α : Type} (r : Rectangle2D α) : RustRange α :=
  ⟨r.lefttopmost.x, r.rightbottommost.x⟩

/-- `Rectangle2D::y` from `src/math.rs`. -/
def Rectangle2D.y {α : Type} (r : Rectangle2D α) : α := r.lefttopmost.y

/-- `Rectangle2D::y_range` from `src/math.rs` (half-open). -/
def Rectangle2D.y_range {α : Type} (r : Rectangle2D α) : RustRange α :=
  ⟨r.lefttopmost.y, r.rightbottommost.y⟩

/-- `Triangle2D<T>` from `src/math.rs`; the tuple fields `.0`, `.1`, `.2`
are named `p0`, `p1`, `p2`. -/
structure Triangle2D (α : Type) where
  p0 : Vector2 α
  p1 : Vector2 α
  p2 : Vector2 α
deriving DecidableEq, Repr

variable {α : Type}

/-- `Triangle2D::area` from `src/math.rs`: absolute value of the 2-D cross
product of the two edge vectors from vertex 0. -/
def Triangle2D.area [LinearOrderedCommRing α] (t : Triangle2D α) : α :=
  |(t.p1.x - t.p0.x) * (t.p2.y - t.p0.y) - (t.p2.x - t.p0.x) * (t.p1.y - t.p0.y)|

/-- `Triangle2D::max_x` from `src/math.rs`. -/
def Triangle2D.max_x [LinearOrder α] (t : Triangle2D α) : α :=
  max t.p0.x (max t.p1.x t.p2.x)

/-- `Triangle2D::max_y` from `src/math.rs`. -/
def Triangle2D.max_y [LinearOrder α] (t : Triangle2D α) : α :=
  max t.p0.y (max t.p1.y t.p2.y)

/-- `Triangle2D::min_x` from `src/math.rs`. -/
def Triangle2D.min_x [LinearOrder α] (t : Triangle2D α) : α :=
  min t.p0.x (min t.p1.x t.p2.x)

/-- `Triangle2D::min_y` from `src/math.rs`. -/
def Triangle2D.min_y [LinearOrder α] (t : Triangle2D α) : α :=
  min t.p0.y (min t.p1.y t.p2.y)

/-- `Triangle2D::encapsulating_rectangle` from `src/math.rs`. -/
def Triangle2D.encapsulating_rectangle [LinearOrderedCommRing α] (t : Triangle2D α) :
    Rectangle2D α :=
  { lefttopmost := Vector2.new t.min_x t.min_y
    rightbottommost := Vector2.new t.max_x t.max_y }

/-- `Triangle2D::hit_test` from `src/math.rs`: area-decomposition
containment test. -/
def Triangle2D.hit_test [LinearOrderedCommRing α] [DecidableEq α]
    (t : Triangle2D α) (point : Vector2 α) : Bool :=
  let area := t.area
  let a1 := (Triangle2D.mk point t.p0 t.p1).area
  let a2 := (Triangle2D.mk point t.p1 t.p2).area
  let a3 := (Triangle2D.mk point t.p2 t.p0).area
  a1 + a2 + a3 == area

/-- `Pixel` from `src/lib.rs`: four 8-bit channels (values are kept as
`ℕ`; all channel literals in the program are below 256 and no channel
arithmetic is performed). -/
structure Pixel where
  red : ℕ
  green : ℕ
  blue : ℕ
  alpha : ℕ
deriving DecidableEq, Repr

/-- `Pixel::new` from `src/lib.rs` (field-by-name initialization: the
written order `alpha, red, green, blue` still binds each field to the
argument of the same name). -/
def Pixel.new (red green blue alpha : ℕ) : Pixel :=
  { alpha, red, green, blue }

/-- `Pixel::BLACK` from `src/lib.rs`. -/
def Pixel.BLACK : Pixel := Pixel.new 0x00 0x00 0x00 0xF

/-- `Pixel::RED` from `src/lib.rs`. -/
def Pixel.RED : Pixel := Pixel.new 0xFF 0xFF 0xFF 0xFF

/-- `TriangleVertices` from `src/lib.rs`: three NDC positions. -/
structure TriangleVertices where
  a : Vector2 ℚ
  b : Vector2 ℚ
  c : Vector2 ℚ
deriving DecidableEq, Repr

/-- `Extent` from `src/swap_chain.rs`. -/
structure Extent where
  width : ℕ
  height : ℕ
deriving DecidableEq, Repr

/-- `SwapChain` from `src/swap_chain.rs`. -/
structure SwapChain where
  extent : Extent
  buffer : List Pixel
deriving DecidableEq, Repr

/-- `create_pixel_buffer` from `src/swap_chain.rs`: `Vec::resize` on an
empty vector produces `width * height` copies of `color`. -/
def create_pixel_buffer (width height : ℕ) (color : Pixel) : List Pixel :=
  List.replicate (width * height) color

/-- `SwapChain::new` from `src/swap_chain.rs`.  `width`, `height` are the
`u32` components of the `LogicalSize<u32>` argument (so callers supply
values below `2 ^ 32`). -/
def SwapChain.new (width height : ℕ) : SwapChain :=
  { extent := { width, height }
    buffer := create_pixel_buffer width height Pixel.BLACK }

/-- `SwapChain::clear` from `src/swap_chain.rs`: `Vec::fill` overwrites
each element in place. -/
def SwapChain.clear (s : SwapChain) (color : Pixel) : SwapChain :=
  { s with buffer := s.buffer.map fun _ => color }

/-- `SwapChain::resize_with_clear_color` from `src/swap_chain.rs`. -/
def SwapChain.resize_with_clear_color (s : SwapChain) (width height : ℕ)
    (color : Pixel) : SwapChain :=
  { s with
    extent := { width, height }
    buffer := create_pixel_buffer width height color }

/-- Rust `f32::round`: nearest integer, ties away from zero. -/
def roundHalfAway (q : ℚ) : ℤ :=
  if 0 ≤ q then ⌊q + 1 / 2⌋ else ⌈q - 1 / 2⌉

/-- The body of `SwapChain::vertex_to_pixel_position`, factored on the
extent it reads (the method touches no other state). -/
def Extent.vertex_to_pixel (e : Extent) (vertex : Vector2 ℚ) : Vector2 ℤ :=
  let x := roundHalfAway ((vertex.x + 1) / 2 * e.width)
  let y := roundHalfAway ((vertex.y + 1) / 2 * e.height)
  Vector2.new x y

/-- `SwapChain::vertex_to_pixel_position` from `src/swap_chain.rs`. -/
def SwapChain.vertex_to_pixel_position (s : SwapChain) (vertex : Vector2 ℚ) :
    Vector2 ℤ :=
  s.extent.vertex_to_pixel vertex

/-- The body of `SwapChain::is_point_inside`, factored on the extent it
reads. -/
def Extent.containsPoint (e : Extent) (point : Vector2 ℤ) : Bool :=
  0 ≤ point.x && 0 ≤ point.y && point.x < (e.width : ℤ) && point.y < (e.height : ℤ)

/-- `SwapChain::is_point_inside` from `src/swap_chain.rs`. -/
def SwapChain.is_point_inside (s : SwapChain) (point : Vector2 ℤ) : Bool :=
  s.extent.containsPoint point

/-- The `as usize` reinterpreting cast from `i32` (sign-extended to 64-bit
and read back as unsigned). -/
def usizeOfI32 (z : ℤ) : ℕ := (z % 2 ^ 64).toNat

/-- `SwapChain::set_pixel` from `src/swap_chain.rs`.  The `usize` index
arithmetic wraps modulo `2 ^ 64`; the slice write panics (`none`) when the
index is out of bounds. -/
def SwapChain.set_pixel (s : SwapChain) (point : Vector2 ℤ) (color : Pixel) :
    Option SwapChain :=
  let px := usizeOfI32 point.x
  let py := usizeOfI32 point.y
  let idx := (py * s.extent.width + px) % 2 ^ 64
  if idx < s.buffer.length then
    some { s with buffer := s.buffer.set idx color }
  else
    none

/-- The integer points of a half-open Rust range `start..stop`, in
iteration order. -/
def intRange (start stop : ℤ) : List ℤ :=
  (List.range (stop - start).toNat).map fun (i : ℕ) => start + (i : ℤ)

/-- The candidate points the rasterization loop enumerates for a bounding
rectangle: `y` over `y_range`, innerly `x` over `x_range`. -/
def candidatePoints (rect : Rectangle2D ℤ) : List (Vector2 ℤ) :=
  (intRange rect.y_range.start rect.y_range.stop).flatMap fun y =>
    (intRange rect.x_range.start rect.x_range.stop).map fun x => Vector2.new x y

/-- One iteration of the inner rasterization loop of
`SwapChain::draw_rasterized`: hit-test the candidate point, and when it is
inside the triangle and the render area, run the fragment shader (advancing
the invocation counter) and write the pixel. -/
def SwapChain.rasterizePoint (s : SwapChain) (triangle : Triangle2D ℤ)
    (frag : ℕ → Pixel) (n : ℕ) (point : Vector2 ℤ) : Option (SwapChain × ℕ) :=
  if triangle.hit_test point then
    if s.is_point_inside point then
      let color := frag n
      match s.set_pixel point color with
      | some s' => some (s', n + 1)
      | none => none
    else some (s, n)
  else some (s, n)

/-- The inner nested loops of `SwapChain::draw_rasterized`, iterating the
candidate points in program order. -/
def rasterizePoints (triangle : Triangle2D ℤ) (frag : ℕ → Pixel) :
    SwapChain → ℕ → List (Vector2 ℤ) → Option (SwapChain × ℕ)
  | s, n, [] => some (s, n)
  | s, n, point :: rest =>
    match s.rasterizePoint triangle frag n point with
    | some (s', n') => rasterizePoints triangle frag s' n' rest
    | none => none

/-- The pixel-space triangle `draw_rasterized` builds for one input
triangle: run the vertex shader on each vertex and map to pixel space. -/
def pixelTriangle (e : Extent) (vertex_shader : Vector2 ℚ → Vector2 ℚ)
    (tri : TriangleVertices) : Triangle2D ℤ :=
  let va := vertex_shader tri.a
  let vb := vertex_shader tri.b
  let vc := vertex_shader tri.c
  Triangle2D.mk (e.vertex_to_pixel va) (e.vertex_to_pixel vb) (e.vertex_to_pixel vc)

/-- The body of `SwapChain::draw_rasterized` for one input triangle. -/
def SwapChain.draw_triangle (s : SwapChain) (vertex_shader : Vector2 ℚ → Vector2 ℚ)
    (frag : ℕ → Pixel) (n : ℕ) (tri : TriangleVertices) : Option (SwapChain × ℕ) :=
  let triangle := pixelTriangle s.extent vertex_shader tri
  let enclosing_rect := triangle.encapsulating_rectangle
  rasterizePoints triangle frag s n (candidatePoints enclosing_rect)

/-- `SwapChain::draw_rasterized` from `src/swap_chain.rs`: the outer loop
over the input triangles, in input order. -/
def SwapChain.draw_rasterized : SwapChain → List TriangleVertices →
    (Vector2 ℚ → Vector2 ℚ) → (ℕ → Pixel) → ℕ → Option (SwapChain × ℕ)
  | s, [], _, _, n => some (s, n)
  | s, tri :: rest, vertex_shader, frag, n =>
    match s.draw_triangle vertex_shader frag n tri with
    | some (s', n') => SwapChain.draw_rasterized s' rest vertex_shader frag n'
    | none => none

/-- Well-formed swap chain: the buffer length matches the extent, and the
extent components are `u32`-sized (they come from a `LogicalSize<u32>`). -/
def SwapChain.wf (s : SwapChain) : Prop :=
  s.buffer.length = s.extent.width * s.extent.height ∧
    s.extent.width < 2 ^ 32 ∧ s.extent.height < 2 ^ 32

/-- The flat buffer index of an in-extent point (`y * width + x`). -/
def pixIndex (e : Extent) (p : Vector2 ℤ) : ℕ :=
  p.y.toNat * e.width + p.x.toNat

/-- Specification-side NDC-to-pixel mapping (spec §4.3 step 2):
`pixel = round((ndc + 1) / 2 * dimension)`, the X axis scaled by the
buffer's width and the Y axis by the buffer's height.  Stated separately
from `Extent.vertex_to_pixel` so the two can be compared. -/
def specNdcToPixelMapping (e : Extent) (ndc : Vector2 ℚ) : Vector2 ℤ :=
  Vector2.new (roundHalfAway ((ndc.x + 1) / 2 * e.width))
    (roundHalfAway ((ndc.y + 1) / 2 * e.height))

/-- The signed 2-D cross product of the edge vectors of `(u, v, w)` from
`u` — twice the signed area of that triangle. -/
def signedCross (u v w : Vector2 ℤ) : ℤ :=
  (v.x - u.x) * (w.y - u.y) - (w.x - u.x) * (v.y - u.y)

/-- The sum of the three decomposition sub-areas `hit_test` compares
against the triangle's area. -/
def subAreaSum (t : Triangle2D ℤ) (p : Vector2 ℤ) : ℤ :=
  (Triangle2D.mk p t.p0 t.p1).area + (Triangle2D.mk p t.p1 t.p2).area +
    (Triangle2D.mk p t.p2 t.p0).area

/-- Specification-side notion of "inside or exactly on the boundary":
membership in the closed triangle, via rational barycentric
coordinates. -/
def memClosedTriangle (t : Triangle2D ℤ) (p : Vector2 ℤ) : Prop :=
  ∃ a b c : ℚ, 0 ≤ a ∧ 0 ≤ b ∧ 0 ≤ c ∧ a + b + c = 1 ∧
    (p.x : ℚ) = a * t.p0.x + b * t.p1.x + c * t.p2.x ∧
    (p.y : ℚ) = a * t.p0.y + b * t.p1.y + c * t.p2.y

/-- Specification-side geometric area of a pixel-space triangle: half the
absolute cross product, as a rational. -/
def geometricArea (t : Triangle2D ℤ) : ℚ :=
  |((t.p1.x - t.p0.x) * (t.p2.y - t.p0.y) - (t.p2.x - t.p0.x) * (t.p1.y - t.p0.y) : ℤ)| / 2

/-- A vertex as a point of the rational plane (for collinearity
statements). -/
def toPlane (v : Vector2 ℤ) : ℚ × ℚ := ((v.x : ℚ), (v.y : ℚ))

/-- "The rasterizer produces a fragment for point `p` while processing
input triangle `tri`": `p` is enumerated as a candidate of the mapped
triangle's bounding rectangle, passes the hit test, and lies inside the
render area — exactly the guard under which `draw_rasterized` invokes the
fragment shader and writes the pixel. -/
def producesFragment (e : Extent) (vertex_shader : Vector2 ℚ → Vector2 ℚ)
    (tri : TriangleVertices) (p : Vector2 ℤ) : Prop :=
  p ∈ candidatePoints (pixelTriangle e vertex_shader tri).encapsulating_rectangle ∧
    (pixelTriangle e vertex_shader tri).hit_test p = true ∧
    e.containsPoint p = true

/-! ## Bridge lemmas for the order helpers -/

lemma min_eq_inf [LinearOrder α] (a b : α) : Raggio.min a b = Min.min a b := by
  unfold Raggio.min
  rcases lt_or_ge a b with h | h
  · rw [if_pos h, min_eq_left h.le]
  · rw [if_neg (not_lt.mpr h), min_eq_right h]

lemma max_eq_sup [LinearOrder α] (a b : α) : Raggio.max a b = Max.max a b := by
  unfold Raggio.max
  rcases lt_or_ge b a with h | h
  · rw [if_pos h, max_eq_left h.le]
  · rw [if_neg (not_lt.mpr h), max_eq_right h]

/-! ## Candidate enumeration -/

lemma mem_intRange {lo hi z : ℤ} : z ∈ intRange lo hi ↔ lo ≤ z ∧ z < hi := by
  simp only [intRange, List.mem_map, List.mem_range]
  constructor
  · rintro ⟨i, hlt, rfl⟩
    omega
  · rintro ⟨h1, h2⟩
    exact ⟨(z - lo).toNat, by omega, by omega⟩

lemma mem_candidatePoints {r : Rectangle2D ℤ} {p : Vector2 ℤ} :
    p ∈ candidatePoints r ↔
      (r.x_range.start ≤ p.x ∧ p.x < r.x_range.stop) ∧
        (r.y_range.start ≤ p.y ∧ p.y < r.y_range.stop) := by
  cases p with
  | mk px py =>
    simp only [candidatePoints, List.mem_flatMap, List.mem_map, mem_intRange,
      Vector2.new, Vector2.mk.injEq]
    constructor
    · rintro ⟨y, hy, x, hx, rfl, rfl⟩
      exact ⟨hx, hy⟩
    · rintro ⟨hx, hy⟩
      exact ⟨py, hy, px, hx, rfl, rfl⟩

/-- C2: for every transformed NDC vertex and every swap-chain extent,
`vertex_to_pixel_position` maps `v` to
`(round((v.x+1)/2*width), round((v.y+1)/2*height))` — the X axis scaled by
the buffer's width and the Y axis by the buffer's height, agreeing with the
specification-side mapping. -/
theorem vertex_to_pixel_position_scales_axes (s : SwapChain) (v : Vector2 ℚ) :
    s.vertex_to_pixel_position v =
        Vector2.new (roundHalfAway ((v.x + 1) / 2 * s.extent.width))
          (roundHalfAway ((v.y + 1) / 2 * s.extent.height)) ∧
      s.vertex_to_pixel_position v = specNdcToPixelMapping s.extent v :=
  ⟨rfl, rfl⟩

/-- C10: `Pixel::BLACK` carries alpha `0x0F` (not opaque `0xFF`) and
`Pixel::RED` has all four channels `0xFF` (i.e. white); a freshly
constructed swap chain is filled with the `(0,0,0,0x0F)` pixel. -/
theorem pixel_constants_values :
    Pixel.BLACK = Pixel.new 0x00 0x00 0x00 0x0F ∧
      Pixel.BLACK.alpha = 15 ∧ Pixel.BLACK.alpha ≠ 0xFF ∧
      Pixel.RED = Pixel.new 0xFF 0xFF 0xFF 0xFF ∧
      Pixel.RED.red = 0xFF ∧ Pixel.RED.green = 0xFF ∧ Pixel.RED.blue = 0xFF ∧
      Pixel.RED.alpha = 0xFF ∧
      ∀ w h : ℕ,
        (SwapChain.new w h).buffer = List.replicate (w * h) (Pixel.new 0 0 0 0x0F) :=
  ⟨rfl, rfl, by decide, rfl, rfl, rfl, rfl, rfl, fun _ _ => rfl⟩

/-! ## Structural lemmas about the rasterizer state -/

lemma set_pixel_some_parts {s s' : SwapChain} {p : Vector2 ℤ} {c : Pixel}
    (h : s.set_pixel p c = some s') :
    s'.extent = s.extent ∧ s'.buffer.length = s.buffer.length := by
  unfold SwapChain.set_pixel at h
  dsimp only at h
  split at h
  · cases h
    exact ⟨rfl, by simp⟩
  · exact Option.noConfusion h

lemma rasterizePoint_cases {s s' : SwapChain} {t : Triangle2D ℤ} {frag : ℕ → Pixel}
    {n n' : ℕ} {p : Vector2 ℤ} (h : s.rasterizePoint t frag n p = some (s', n')) :
    (s' = s ∧ n' = n) ∨
      (t.hit_test p = true ∧ s.is_point_inside p = true ∧
        s.set_pixel p (frag n) = some s' ∧ n' = n + 1) := by
  unfold SwapChain.rasterizePoint at h
  split at h
  · split at h
    · rename_i hhit hin
      dsimp only at h
      cases hset : s.set_pixel p (frag n) with
      | some s2 =>
        rw [hset] at h
        cases h
        exact Or.inr ⟨hhit, hin, rfl, rfl⟩
      | none =>
        rw [hset] at h
        exact Option.noConfusion h
    · cases h
      exact Or.inl ⟨rfl, rfl⟩
  · cases h
    exact Or.inl ⟨rfl, rfl⟩

lemma rasterizePoint_parts {s s' : SwapChain} {t : Triangle2D ℤ} {frag : ℕ → Pixel}
    {n n' : ℕ} {p : Vector2 ℤ} (h : s.rasterizePoint t frag n p = some (s', n')) :
    s'.extent = s.extent ∧ s'.buffer.length = s.buffer.length ∧ n ≤ n' := by
  rcases rasterizePoint_cases h with ⟨rfl, rfl⟩ | ⟨-, -, hset, rfl⟩
  · exact ⟨rfl, rfl, le_rfl⟩
  · obtain ⟨he, hl⟩ := set_pixel_some_parts hset
    exact ⟨he, hl, Nat.le_succ n⟩

lemma rasterizePoints_parts {t : Triangle2D ℤ} {frag : ℕ → Pixel} :
    ∀ {pts : List (Vector2 ℤ)} {s s' : SwapChain} {n n' : ℕ},
      rasterizePoints t frag s n pts = some (s', n') →
      s'.extent = s.extent ∧ s'.buffer.length = s.buffer.length ∧ n ≤ n'
  | [], s, s', n, n', h => by
    cases h
    exact ⟨rfl, rfl, le_rfl⟩
  | p :: rest, s, s', n, n', h => by
    rw [rasterizePoints] at h
    cases hstep : s.rasterizePoint t frag n p with
    | some pair =>
      obtain ⟨s₁, n₁⟩ := pair
      rw [hstep] at h
      obtain ⟨he₁, hl₁, hn₁⟩ := rasterizePoint_parts hstep
      obtain ⟨he₂, hl₂, hn₂⟩ := rasterizePoints_parts h
      exact ⟨he₂.trans he₁, hl₂.trans hl₁, hn₁.trans hn₂⟩
    | none =>
      rw [hstep] at h
      exact Option.noConfusion h

lemma draw_triangle_parts {s s' : SwapChain} {vsh : Vector2 ℚ → Vector2 ℚ}
    {frag : ℕ → Pixel} {n n' : ℕ} {tri : TriangleVertices}
    (h : s.draw_triangle vsh frag n tri = some (s', n')) :
    s'.extent = s.extent ∧ s'.buffer.length = s.buffer.length ∧ n ≤ n' :=
  rasterizePoints_parts h

lemma draw_rasterized_parts {vsh : Vector2 ℚ → Vector2 ℚ} {frag : ℕ → Pixel} :
    ∀ {tris : List TriangleVertices} {s s' : SwapChain} {n n' : ℕ},
      s.draw_rasterized tris vsh frag n = some (s', n') →
      s'.extent = s.extent ∧ s'.buffer.length = s.buffer.length ∧ n ≤ n'
  | [], s, s', n, n', h => by
    cases h
    exact ⟨rfl, rfl, le_rfl⟩
  | tri :: rest, s, s', n, n', h => by
    rw [SwapChain.draw_rasterized] at h
    cases hstep : s.draw_triangle vsh frag n tri with
    | some pair =>
      obtain ⟨s₁, n₁⟩ := pair
      rw [hstep] at h
      obtain ⟨he₁, hl₁, hn₁⟩ := draw_triangle_parts hstep
      obtain ⟨he₂, hl₂, hn₂⟩ := draw_rasterized_parts h
      exact ⟨he₂.trans he₁, hl₂.trans hl₁, hn₁.trans hn₂⟩
    | none =>
      rw [hstep] at h
      exact Option.noConfusion h

/-- C8: the buffer-length invariant `length = width * height` holds after
construction and is preserved by `clear`, `resize_with_clear_color` and
`draw_rasterized`; `clear` overwrites every element with the given color
without changing the length. -/
theorem buffer_length_invariant :
    (∀ w h : ℕ, (SwapChain.new w h).extent = ⟨w, h⟩ ∧
      (SwapChain.new w h).buffer.length =
        (SwapChain.new w h).extent.width * (SwapChain.new w h).extent.height) ∧
    (∀ (s : SwapChain) (c : Pixel),
      (s.clear c).extent = s.extent ∧
      (s.clear c).buffer.length = s.buffer.length ∧
      ∀ q ∈ (s.clear c).buffer, q = c) ∧
    (∀ (s : SwapChain) (c : Pixel),
      s.buffer.length = s.extent.width * s.extent.height →
      (s.clear c).buffer.length = (s.clear c).extent.width * (s.clear c).extent.height) ∧
    (∀ (s : SwapChain) (w h : ℕ) (c : Pixel),
      (s.resize_with_clear_color w h c).buffer.length =
        (s.resize_with_clear_color w h c).extent.width *
          (s.resize_with_clear_color w h c).extent.height) ∧
    (∀ (s s' : SwapChain) (tris : List TriangleVertices)
        (vsh : Vector2 ℚ → Vector2 ℚ) (frag : ℕ → Pixel) (n n' : ℕ),
      s.buffer.length = s.extent.width * s.extent.height →
      s.draw_rasterized tris vsh frag n = some (s', n') →
      s'.buffer.length = s'.extent.width * s'.extent.height) := by
  refine ⟨fun w h => ⟨rfl, ?_⟩, fun s c => ⟨rfl, by simp [SwapChain.clear], ?_⟩,
    fun s c hinv => ?_, fun s w h c => ?_, fun s s' tris vsh frag n n' hinv hdraw => ?_⟩
  · simp [SwapChain.new, create_pixel_buffer]
  · intro q hq
    simp only [SwapChain.clear, List.mem_map] at hq
    obtain ⟨-, -, rfl⟩ := hq
    rfl
  · simpa [SwapChain.clear] using hinv
  · simp [SwapChain.resize_with_clear_color, create_pixel_buffer]
  · obtain ⟨he, hl, -⟩ := draw_rasterized_parts hdraw
    rw [he, hl, hinv]

/-- Closed instance of `buffer_length_invariant`, discharging its inner
hypotheses at concrete inputs. -/
theorem buffer_length_invariant_witness :
    ((SwapChain.new 2 3).clear Pixel.RED).buffer.length =
        ((SwapChain.new 2 3).clear Pixel.RED).extent.width *
          ((SwapChain.new 2 3).clear Pixel.RED).extent.height ∧
      ∃ s' n', (SwapChain.new 2 3).draw_rasterized [] id (fun _ => Pixel.RED) 0 =
          some (s', n') ∧
        s'.buffer.length = s'.extent.width * s'.extent.height := by
  constructor
  · exact buffer_length_invariant.2.2.1 (SwapChain.new 2 3) Pixel.RED (by decide)
  · exact ⟨SwapChain.new 2 3, 0, rfl,
      buffer_length_invariant.2.2.2.2 (SwapChain.new 2 3) (SwapChain.new 2 3) []
        id (fun _ => Pixel.RED) 0 0 (by decide) rfl⟩

/-! ## Zero-extent draws are no-ops -/

lemma containsPoint_width_zero {e : Extent} (hw : e.width = 0) (p : Vector2 ℤ) :
    e.containsPoint p = false := by
  simp only [Extent.containsPoint, hw, Nat.cast_zero]
  by_cases h : (0 : ℤ) ≤ p.x
  · have h2 : ¬ p.x < (0 : ℤ) := not_lt.mpr h
    simp [h2]
  · simp [h]

lemma rasterizePoint_width_zero {s : SwapChain} (hw : s.extent.width = 0)
    {t : Triangle2D ℤ} {frag : ℕ → Pixel} {n : ℕ} {p : Vector2 ℤ} :
    s.rasterizePoint t frag n p = some (s, n) := by
  unfold SwapChain.rasterizePoint
  split
  · rw [SwapChain.is_point_inside, containsPoint_width_zero hw]
    simp
  · rfl

lemma rasterizePoints_width_zero {s : SwapChain} (hw : s.extent.width = 0)
    {t : Triangle2D ℤ} {frag : ℕ → Pixel} :
    ∀ (pts : List (Vector2 ℤ)) (n : ℕ), rasterizePoints t frag s n pts = some (s, n)
  | [], _ => rfl
  | p :: rest, n => by
    rw [rasterizePoints, rasterizePoint_width_zero hw]
    exact rasterizePoints_width_zero hw rest n

lemma draw_rasterized_width_zero {s : SwapChain} (hw : s.extent.width = 0)
    {vsh : Vector2 ℚ → Vector2 ℚ} {frag : ℕ → Pixel} :
    ∀ (tris : List TriangleVertices) (n : ℕ),
      s.draw_rasterized tris vsh frag n = some (s, n)
  | [], _ => rfl
  | tri :: rest, n => by
    rw [SwapChain.draw_rasterized, SwapChain.draw_triangle,
      rasterizePoints_width_zero hw]
    exact draw_rasterized_width_zero hw rest n

/-- C9: `resize_with_clear_color` always yields a buffer of exactly
`width * height` elements, all equal to the clear color, regardless of the
prior buffer; resizing to `0 × 0` yields an empty buffer, after which
`clear` and `draw_rasterized` are safe no-ops. -/
theorem resize_full_clear (s : SwapChain) (w h : ℕ) (c : Pixel) :
    (s.resize_with_clear_color w h c).extent = ⟨w, h⟩ ∧
      (s.resize_with_clear_color w h c).buffer = List.replicate (w * h) c ∧
      (s.resize_with_clear_color w h c).buffer.length = w * h ∧
      (∀ q ∈ (s.resize_with_clear_color w h c).buffer, q = c) ∧
      (s.resize_with_clear_color 0 0 c).buffer = [] ∧
      (∀ c2 : Pixel, (s.resize_with_clear_color 0 0 c).clear c2 =
        s.resize_with_clear_color 0 0 c) ∧
      (∀ (tris : List TriangleVertices) (vsh : Vector2 ℚ → Vector2 ℚ)
          (frag : ℕ → Pixel) (n : ℕ),
        (s.resize_with_clear_color 0 0 c).draw_rasterized tris vsh frag n =
          some (s.resize_with_clear_color 0 0 c, n)) := by
  refine ⟨rfl, rfl, by simp [SwapChain.resize_with_clear_color, create_pixel_buffer],
    ?_, rfl, fun c2 => rfl, fun tris vsh frag n => draw_rasterized_width_zero rfl tris n⟩
  intro q hq
  simp only [SwapChain.resize_with_clear_color, create_pixel_buffer,
    List.mem_replicate] at hq
  exact hq.2

/-! ## In-bounds writes under well-formedness -/

lemma containsPoint_iff {e : Extent} {p : Vector2 ℤ} :
    e.containsPoint p = true ↔
      0 ≤ p.x ∧ 0 ≤ p.y ∧ p.x < (e.width : ℤ) ∧ p.y < (e.height : ℤ) := by
  simp [Extent.containsPoint, and_assoc]

lemma set_pixel_of_contains {s : SwapChain} (hwf : s.wf) {p : Vector2 ℤ}
    (hp : s.extent.containsPoint p = true) (c : Pixel) :
    pixIndex s.extent p < s.buffer.length ∧
      s.set_pixel p c = some { s with buffer := s.buffer.set (pixIndex s.extent p) c } := by
  obtain ⟨hlen, hw, hh⟩ := hwf
  rw [containsPoint_iff] at hp
  obtain ⟨hx0, hy0, hxw, hyh⟩ := hp
  have hxe : usizeOfI32 p.x = p.x.toNat := by unfold usizeOfI32; omega
  have hye : usizeOfI32 p.y = p.y.toNat := by unfold usizeOfI32; omega
  have hidx : pixIndex s.extent p < s.extent.width * s.extent.height := by
    unfold pixIndex
    calc p.y.toNat * s.extent.width + p.x.toNat
        < p.y.toNat * s.extent.width + s.extent.width := by omega
      _ = (p.y.toNat + 1) * s.extent.width := by ring
      _ ≤ s.extent.height * s.extent.width := Nat.mul_le_mul_right _ (by omega)
      _ = s.extent.width * s.extent.height := Nat.mul_comm _ _
  have hbound : s.extent.width * s.extent.height < 2 ^ 64 := by
    have h2 : s.extent.width * s.extent.height < 2 ^ 32 * 2 ^ 32 :=
      Nat.mul_lt_mul_of_lt_of_le hw hh.le (by norm_num)
    calc s.extent.width * s.extent.height < 2 ^ 32 * 2 ^ 32 := h2
      _ = 2 ^ 64 := by norm_num
  have hmod : (usizeOfI32 p.y * s.extent.width + usizeOfI32 p.x) % 2 ^ 64 =
      pixIndex s.extent p := by
    rw [hxe, hye]
    apply Nat.mod_eq_of_lt
    show pixIndex s.extent p < 2 ^ 64
    exact lt_trans hidx hbound
  have hlt : pixIndex s.extent p < s.buffer.length := by rw [hlen]; exact hidx
  refine ⟨hlt, ?_⟩
  unfold SwapChain.set_pixel
  dsimp only
  rw [hmod, if_pos hlt]

lemma set_wf {s : SwapChain} (hwf : s.wf) (i : ℕ) (c : Pixel) :
    SwapChain.wf { s with buffer := s.buffer.set i c } := by
  obtain ⟨hlen, hw, hh⟩ := hwf
  exact ⟨by simpa using hlen, hw, hh⟩

lemma rasterizePoint_wf_some {s : SwapChain} (hwf : s.wf) {t : Triangle2D ℤ}
    {frag : ℕ → Pixel} {n : ℕ} {p : Vector2 ℤ} :
    ∃ s' n', s.rasterizePoint t frag n p = some (s', n') ∧ s'.wf ∧
      s'.extent = s.extent := by
  unfold SwapChain.rasterizePoint
  split
  · split
    · rename_i hin
      obtain ⟨hlt, hset⟩ := set_pixel_of_contains hwf hin (frag n)
      dsimp only
      rw [hset]
      exact ⟨_, n + 1, rfl, set_wf ⟨hwf.1, hwf.2.1, hwf.2.2⟩ _ _, rfl⟩
    · exact ⟨s, n, rfl, hwf, rfl⟩
  · exact ⟨s, n, rfl, hwf, rfl⟩

lemma rasterizePoints_wf_some {t : Triangle2D ℤ} {frag : ℕ → Pixel} :
    ∀ {pts : List (Vector2 ℤ)} {s : SwapChain} {n : ℕ}, s.wf →
      ∃ s' n', rasterizePoints t frag s n pts = some (s', n') ∧ s'.wf ∧
        s'.extent = s.extent
  | [], s, n, hwf => ⟨s, n, rfl, hwf, rfl⟩
  | p :: rest, s, n, hwf => by
    obtain ⟨s₁, n₁, hstep, hwf₁, he₁⟩ := @rasterizePoint_wf_some s hwf t frag n p
    obtain ⟨s₂, n₂, hrest, hwf₂, he₂⟩ :=
      @rasterizePoints_wf_some t frag rest s₁ n₁ hwf₁
    exact ⟨s₂, n₂, by rw [rasterizePoints, hstep]; exact hrest, hwf₂, he₂.trans he₁⟩

lemma draw_rasterized_wf_some {vsh : Vector2 ℚ → Vector2 ℚ} {frag : ℕ → Pixel} :
    ∀ {tris : List TriangleVertices} {s : SwapChain} {n : ℕ}, s.wf →
      ∃ s' n', s.draw_rasterized tris vsh frag n = some (s', n') ∧ s'.wf ∧
        s'.extent = s.extent
  | [], s, n, hwf => ⟨s, n, rfl, hwf, rfl⟩
  | tri :: rest, s, n, hwf => by
    obtain ⟨s₁, n₁, hstep, hwf₁, he₁⟩ :=
      @rasterizePoints_wf_some (pixelTriangle s.extent vsh tri) frag
        (candidatePoints (pixelTriangle s.extent vsh tri).encapsulating_rectangle)
        s n hwf
    obtain ⟨s₂, n₂, hrest, hwf₂, he₂⟩ :=
      @draw_rasterized_wf_some vsh frag rest s₁ n₁ hwf₁
    exact ⟨s₂, n₂, by rw [SwapChain.draw_rasterized, SwapChain.draw_triangle, hstep]; exact hrest,
      hwf₂, he₂.trans he₁⟩

/-- C7: for a well-formed swap chain, a pixel write only happens under the
containment-and-extent guard, the guarded index `y*width+x` is always
strictly below the buffer length (so `set_pixel` never indexes out of
bounds), and `draw_rasterized` never faults: it returns a well-formed
result for any input triangles and shaders. -/
theorem draw_rasterized_in_bounds (s : SwapChain) (tris : List TriangleVertices)
    (vsh : Vector2 ℚ → Vector2 ℚ) (frag : ℕ → Pixel) (n : ℕ) (hwf : s.wf) :
    (∀ (p : Vector2 ℤ) (c : Pixel), s.is_point_inside p = true →
      pixIndex s.extent p < s.buffer.length ∧
        s.set_pixel p c = some { s with buffer := s.buffer.set (pixIndex s.extent p) c }) ∧
      ∃ s' n', s.draw_rasterized tris vsh frag n = some (s', n') ∧ s'.wf ∧
        s'.extent = s.extent :=
  ⟨fun _ c hp => set_pixel_of_contains hwf hp c, draw_rasterized_wf_some hwf⟩

/-- Closed instance of `draw_rasterized_in_bounds` at a concrete
swap chain and triangle list. -/
theorem draw_rasterized_in_bounds_witness :
    ∃ s' n', (SwapChain.new 2 2).draw_rasterized
        [⟨Vector2.new (-1) (-1), Vector2.new 1 (-1), Vector2.new (-1) 1⟩]
        id (fun _ => Pixel.RED) 0 = some (s', n') ∧ s'.wf ∧
      s'.extent = (SwapChain.new 2 2).extent :=
  (draw_rasterized_in_bounds (SwapChain.new 2 2)
    [⟨Vector2.new (-1) (-1), Vector2.new 1 (-1), Vector2.new (-1) 1⟩]
    id (fun _ => Pixel.RED) 0 ⟨by decide, by decide, by decide⟩).2

/-- C5: the encapsulating rectangle's corners are the componentwise
min/max of the three vertices, its per-axis ranges are the half-open
`[min, max)` ranges, the candidate points enumerated during rasterization
are exactly the integer points of those half-open ranges, and
`draw_triangle` passes exactly that candidate list to the containment
test. -/
theorem bounding_rectangle_candidates (t : Triangle2D ℤ) :
    t.encapsulating_rectangle.lefttopmost =
        Vector2.new (Min.min t.p0.x (Min.min t.p1.x t.p2.x))
          (Min.min t.p0.y (Min.min t.p1.y t.p2.y)) ∧
      t.encapsulating_rectangle.rightbottommost =
        Vector2.new (Max.max t.p0.x (Max.max t.p1.x t.p2.x))
          (Max.max t.p0.y (Max.max t.p1.y t.p2.y)) ∧
      t.encapsulating_rectangle.x_range = ⟨t.min_x, t.max_x⟩ ∧
      t.encapsulating_rectangle.y_range = ⟨t.min_y, t.max_y⟩ ∧
      (∀ p : Vector2 ℤ, p ∈ candidatePoints t.encapsulating_rectangle ↔
        (t.min_x ≤ p.x ∧ p.x < t.max_x ∧ t.min_y ≤ p.y ∧ p.y < t.max_y)) ∧
      (∀ (s : SwapChain) (vsh : Vector2 ℚ → Vector2 ℚ) (frag : ℕ → Pixel)
          (n : ℕ) (tri : TriangleVertices),
        s.draw_triangle vsh frag n tri =
          rasterizePoints (pixelTriangle s.extent vsh tri) frag s n
            (candidatePoints (pixelTriangle s.extent vsh tri).encapsulating_rectangle)) := by
  refine ⟨?_, ?_, rfl, rfl, ?_, fun s vsh frag n tri => rfl⟩
  · simp [Triangle2D.encapsulating_rectangle, Triangle2D.min_x, Triangle2D.min_y,
      min_eq_inf]
  · simp [Triangle2D.encapsulating_rectangle, Triangle2D.max_x, Triangle2D.max_y,
      max_eq_sup]
  · intro p
    rw [mem_candidatePoints]
    constructor
    · rintro ⟨⟨h1, h2⟩, h3, h4⟩
      exact ⟨h1, h2, h3, h4⟩
    · rintro ⟨h1, h2, h3, h4⟩
      exact ⟨⟨h1, h2⟩, h3, h4⟩

/-! ## Area decomposition: signed-cross identities -/

lemma signedCross_sum (t : Triangle2D ℤ) (p : Vector2 ℤ) :
    signedCross p t.p0 t.p1 + signedCross p t.p1 t.p2 + signedCross p t.p2 t.p0 =
      signedCross t.p0 t.p1 t.p2 := by
  unfold signedCross
  ring

lemma subAreaSum_eq_abs (t : Triangle2D ℤ) (p : Vector2 ℤ) :
    subAreaSum t p =
      |signedCross p t.p0 t.p1| + |signedCross p t.p1 t.p2| +
        |signedCross p t.p2 t.p0| := rfl

lemma area_eq_abs_signedCross (t : Triangle2D ℤ) :
    t.area = |signedCross t.p0 t.p1 t.p2| := rfl

lemma abs_add_three_eq {a b c : ℤ} :
    |a| + |b| + |c| = |a + b + c| ↔
      (0 ≤ a ∧ 0 ≤ b ∧ 0 ≤ c) ∨ (a ≤ 0 ∧ b ≤ 0 ∧ c ≤ 0) := by
  rw [Int.abs_eq_natAbs, Int.abs_eq_natAbs, Int.abs_eq_natAbs, Int.abs_eq_natAbs]
  omega

lemma abs_add_three_le (a b c : ℤ) : |a + b + c| ≤ |a| + |b| + |c| :=
  calc |a + b + c| ≤ |a + b| + |c| := abs_add _ _
    _ ≤ |a| + |b| + |c| := add_le_add_right (abs_add a b) _

lemma barycentric_signedCross {t : Triangle2D ℤ} {p : Vector2 ℤ} {a b c : ℚ}
    (hsum : a + b + c = 1)
    (hx : (p.x : ℚ) = a * t.p0.x + b * t.p1.x + c * t.p2.x)
    (hy : (p.y : ℚ) = a * t.p0.y + b * t.p1.y + c * t.p2.y) :
    ((signedCross p t.p0 t.p1 : ℤ) : ℚ) = c * ((signedCross t.p0 t.p1 t.p2 : ℤ) : ℚ) ∧
      ((signedCross p t.p1 t.p2 : ℤ) : ℚ) = a * ((signedCross t.p0 t.p1 t.p2 : ℤ) : ℚ) ∧
      ((signedCross p t.p2 t.p0 : ℤ) : ℚ) = b * ((signedCross t.p0 t.p1 t.p2 : ℤ) : ℚ) := by
  have hc : c = 1 - a - b := by linarith
  subst hc
  unfold signedCross
  push_cast
  rw [hx, hy]
  exact ⟨by ring, by ring, by ring⟩

lemma cramer_x (t : Triangle2D ℤ) (p : Vector2 ℤ) :
    signedCross p t.p1 t.p2 * t.p0.x + signedCross p t.p2 t.p0 * t.p1.x +
      signedCross p t.p0 t.p1 * t.p2.x = signedCross t.p0 t.p1 t.p2 * p.x := by
  unfold signedCross
  ring

lemma cramer_y (t : Triangle2D ℤ) (p : Vector2 ℤ) :
    signedCross p t.p1 t.p2 * t.p0.y + signedCross p t.p2 t.p0 * t.p1.y +
      signedCross p t.p0 t.p1 * t.p2.y = signedCross t.p0 t.p1 t.p2 * p.y := by
  unfold signedCross
  ring

/-- C3: `hit_test` returns `true` iff the three decomposition sub-areas
sum to the triangle's area; the sum never falls below the area; and for a
non-degenerate triangle the sum equals the area exactly on the closed
triangle (inside or on the boundary) and strictly exceeds it outside. -/
theorem hit_test_area_decomposition (t : Triangle2D ℤ) (p : Vector2 ℤ) :
    (t.hit_test p = true ↔ subAreaSum t p = t.area) ∧
      t.area ≤ subAreaSum t p ∧
      (t.area ≠ 0 →
        (memClosedTriangle t p → subAreaSum t p = t.area) ∧
          (¬ memClosedTriangle t p → t.area < subAreaSum t p)) := by
  have hsum := signedCross_sum t p
  have hA := subAreaSum_eq_abs t p
  have hArea := area_eq_abs_signedCross t
  have hle : t.area ≤ subAreaSum t p := by
    rw [hA, hArea, ← hsum]
    exact abs_add_three_le _ _ _
  refine ⟨?_, hle, ?_⟩
  · simp only [Triangle2D.hit_test, beq_iff_eq]
    exact Iff.rfl
  · intro hne
    have hdZ : signedCross t.p0 t.p1 t.p2 ≠ 0 := by
      rw [hArea] at hne
      exact abs_ne_zero.mp hne
    have hdQ : ((signedCross t.p0 t.p1 t.p2 : ℤ) : ℚ) ≠ 0 := Int.cast_ne_zero.mpr hdZ
    constructor
    · rintro ⟨a, b, c, ha, hb, hc, hsum1, hx, hy⟩
      obtain ⟨e1, e2, e3⟩ := barycentric_signedCross hsum1 hx hy
      rcases le_or_lt 0 (signedCross t.p0 t.p1 t.p2) with hdpos | hdneg
      · have hdposQ : (0 : ℚ) ≤ ((signedCross t.p0 t.p1 t.p2 : ℤ) : ℚ) := by
          exact_mod_cast hdpos
        have h1 : 0 ≤ signedCross p t.p0 t.p1 := by
          have : (0 : ℚ) ≤ ((signedCross p t.p0 t.p1 : ℤ) : ℚ) := by
            rw [e1]; exact mul_nonneg hc hdposQ
          exact_mod_cast this
        have h2 : 0 ≤ signedCross p t.p1 t.p2 := by
          have : (0 : ℚ) ≤ ((signedCross p t.p1 t.p2 : ℤ) : ℚ) := by
            rw [e2]; exact mul_nonneg ha hdposQ
          exact_mod_cast this
        have h3 : 0 ≤ signedCross p t.p2 t.p0 := by
          have : (0 : ℚ) ≤ ((signedCross p t.p2 t.p0 : ℤ) : ℚ) := by
            rw [e3]; exact mul_nonneg hb hdposQ
          exact_mod_cast this
        rw [hA, hArea]
        rw [Int.abs_eq_natAbs, Int.abs_eq_natAbs, Int.abs_eq_natAbs, Int.abs_eq_natAbs]
        omega
      · have hdnegQ : ((signedCross t.p0 t.p1 t.p2 : ℤ) : ℚ) ≤ 0 := by
          exact_mod_cast hdneg.le
        have h1 : signedCross p t.p0 t.p1 ≤ 0 := by
          have : ((signedCross p t.p0 t.p1 : ℤ) : ℚ) ≤ 0 := by
            rw [e1]; exact mul_nonpos_iff.mpr (Or.inl ⟨hc, hdnegQ⟩)
          exact_mod_cast this
        have h2 : signedCross p t.p1 t.p2 ≤ 0 := by
          have : ((signedCross p t.p1 t.p2 : ℤ) : ℚ) ≤ 0 := by
            rw [e2]; exact mul_nonpos_iff.mpr (Or.inl ⟨ha, hdnegQ⟩)
          exact_mod_cast this
        have h3 : signedCross p t.p2 t.p0 ≤ 0 := by
          have : ((signedCross p t.p2 t.p0 : ℤ) : ℚ) ≤ 0 := by
            rw [e3]; exact mul_nonpos_iff.mpr (Or.inl ⟨hb, hdnegQ⟩)
          exact_mod_cast this
        rw [hA, hArea]
        rw [Int.abs_eq_natAbs, Int.abs_eq_natAbs, Int.abs_eq_natAbs, Int.abs_eq_natAbs]
        omega
    · intro hnmem
      rcases lt_or_eq_of_le hle with hlt | heq
      · exact hlt
      · exfalso
        apply hnmem
        have heqabs : |signedCross p t.p0 t.p1| + |signedCross p t.p1 t.p2| +
            |signedCross p t.p2 t.p0| =
            |signedCross p t.p0 t.p1 + signedCross p t.p1 t.p2 +
              signedCross p t.p2 t.p0| := by
          rw [hsum, ← hArea, ← hA]
          exact heq.symm
        have hsigns := abs_add_three_eq.mp heqabs
        have hcx : ((signedCross p t.p1 t.p2 : ℤ) : ℚ) * t.p0.x +
            ((signedCross p t.p2 t.p0 : ℤ) : ℚ) * t.p1.x +
            ((signedCross p t.p0 t.p1 : ℤ) : ℚ) * t.p2.x =
            ((signedCross t.p0 t.p1 t.p2 : ℤ) : ℚ) * p.x := by
          exact_mod_cast cramer_x t p
        have hcy : ((signedCross p t.p1 t.p2 : ℤ) : ℚ) * t.p0.y +
            ((signedCross p t.p2 t.p0 : ℤ) : ℚ) * t.p1.y +
            ((signedCross p t.p0 t.p1 : ℤ) : ℚ) * t.p2.y =
            ((signedCross t.p0 t.p1 t.p2 : ℤ) : ℚ) * p.y := by
          exact_mod_cast cramer_y t p
        have hsumQ : ((signedCross p t.p0 t.p1 : ℤ) : ℚ) +
            ((signedCross p t.p1 t.p2 : ℤ) : ℚ) +
            ((signedCross p t.p2 t.p0 : ℤ) : ℚ) =
            ((signedCross t.p0 t.p1 t.p2 : ℤ) : ℚ) := by
          exact_mod_cast hsum
        refine ⟨((signedCross p t.p1 t.p2 : ℤ) : ℚ) / ((signedCross t.p0 t.p1 t.p2 : ℤ) : ℚ),
          ((signedCross p t.p2 t.p0 : ℤ) : ℚ) / ((signedCross t.p0 t.p1 t.p2 : ℤ) : ℚ),
          ((signedCross p t.p0 t.p1 : ℤ) : ℚ) / ((signedCross t.p0 t.p1 t.p2 : ℤ) : ℚ),
          ?_, ?_, ?_, ?_, ?_, ?_⟩
        · rcases hsigns with ⟨h1, h2, h3⟩ | ⟨h1, h2, h3⟩
          · have hdpos : (0 : ℚ) ≤ ((signedCross t.p0 t.p1 t.p2 : ℤ) : ℚ) := by
              exact_mod_cast (by omega : (0 : ℤ) ≤ signedCross t.p0 t.p1 t.p2)
            exact div_nonneg (by exact_mod_cast h2) hdpos
          · have hdneg : ((signedCross t.p0 t.p1 t.p2 : ℤ) : ℚ) ≤ 0 := by
              exact_mod_cast (by omega : signedCross t.p0 t.p1 t.p2 ≤ (0 : ℤ))
            exact div_nonneg_iff.mpr (Or.inr ⟨by exact_mod_cast h2, hdneg⟩)
        · rcases hsigns with ⟨h1, h2, h3⟩ | ⟨h1, h2, h3⟩
          · have hdpos : (0 : ℚ) ≤ ((signedCross t.p0 t.p1 t.p2 : ℤ) : ℚ) := by
              exact_mod_cast (by omega : (0 : ℤ) ≤ signedCross t.p0 t.p1 t.p2)
            exact div_nonneg (by exact_mod_cast h3) hdpos
          · have hdneg : ((signedCross t.p0 t.p1 t.p2 : ℤ) : ℚ) ≤ 0 := by
              exact_mod_cast (by omega : signedCross t.p0 t.p1 t.p2 ≤ (0 : ℤ))
            exact div_nonneg_iff.mpr (Or.inr ⟨by exact_mod_cast h3, hdneg⟩)
        · rcases hsigns with ⟨h1, h2, h3⟩ | ⟨h1, h2, h3⟩
          · have hdpos : (0 : ℚ) ≤ ((signedCross t.p0 t.p1 t.p2 : ℤ) : ℚ) := by
              exact_mod_cast (by omega : (0 : ℤ) ≤ signedCross t.p0 t.p1 t.p2)
            exact div_nonneg (by exact_mod_cast h1) hdpos
          · have hdneg : ((signedCross t.p0 t.p1 t.p2 : ℤ) : ℚ) ≤ 0 := by
              exact_mod_cast (by omega : signedCross t.p0 t.p1 t.p2 ≤ (0 : ℤ))
            exact div_nonneg_iff.mpr (Or.inr ⟨by exact_mod_cast h1, hdneg⟩)
        · rw [div_add_div_same, div_add_div_same, div_eq_one_iff_eq hdQ]
          linarith [hsumQ]
        · rw [div_mul_eq_mul_div, div_mul_eq_mul_div, div_mul_eq_mul_div,
            div_add_div_same, div_add_div_same, hcx, mul_comm, mul_div_assoc,
            div_self hdQ, mul_one]
        · rw [div_mul_eq_mul_div, div_mul_eq_mul_div, div_mul_eq_mul_div,
            div_add_div_same, div_add_div_same, hcy, mul_comm, mul_div_assoc,
            div_self hdQ, mul_one]

/-- Closed instance of `hit_test_area_decomposition`: the point `(1,1)`
lies in the closed triangle `(0,0),(4,0),(0,4)` and the sub-area sum
equals the area; the point `(5,5)` lies outside and the sum strictly
exceeds the area. -/
theorem hit_test_area_decomposition_witness :
    subAreaSum (Triangle2D.mk (Vector2.new 0 0) (Vector2.new 4 0) (Vector2.new 0 4))
        (Vector2.new 1 1) =
      (Triangle2D.mk (Vector2.new 0 0) (Vector2.new 4 0) (Vector2.new 0 4) :
        Triangle2D ℤ).area ∧
    (Triangle2D.mk (Vector2.new 0 0) (Vector2.new 4 0) (Vector2.new 0 4) :
        Triangle2D ℤ).area <
      subAreaSum (Triangle2D.mk (Vector2.new 0 0) (Vector2.new 4 0) (Vector2.new 0 4))
        (Vector2.new 5 5) := by
  constructor
  · exact ((hit_test_area_decomposition
        (Triangle2D.mk (Vector2.new 0 0) (Vector2.new 4 0) (Vector2.new 0 4))
        (Vector2.new 1 1)).2.2 (by decide)).1
      ⟨1/2, 1/4, 1/4, by norm_num, by norm_num, by norm_num, by norm_num,
        by push_cast [Vector2.new]; norm_num, by push_cast [Vector2.new]; norm_num⟩
  · refine ((hit_test_area_decomposition
        (Triangle2D.mk (Vector2.new 0 0) (Vector2.new 4 0) (Vector2.new 0 4))
        (Vector2.new 5 5)).2.2 (by decide)).2 ?_
    rintro ⟨a, b, c, ha, hb, hc, hs, hx, hy⟩
    push_cast [Vector2.new] at hx hy
    norm_num at hx hy
    linarith

/-! ## Collinearity and the cross product -/

lemma collinear_iff_cross_eq_zero (a b c : ℚ × ℚ) :
    Collinear ℚ ({a, b, c} : Set (ℚ × ℚ)) ↔
      (b.1 - a.1) * (c.2 - a.2) - (c.1 - a.1) * (b.2 - a.2) = 0 := by
  constructor
  · intro h
    rw [collinear_iff_of_mem (Set.mem_insert a {b, c})] at h
    obtain ⟨v, hv⟩ := h
    obtain ⟨rb, hb⟩ := hv b (by simp)
    obtain ⟨rc, hc⟩ := hv c (by simp)
    have hb1 : b.1 = rb * v.1 + a.1 := by
      rw [hb]; simp [vadd_eq_add, Prod.fst_add, smul_eq_mul]
    have hb2 : b.2 = rb * v.2 + a.2 := by
      rw [hb]; simp [vadd_eq_add, Prod.snd_add, smul_eq_mul]
    have hc1 : c.1 = rc * v.1 + a.1 := by
      rw [hc]; simp [vadd_eq_add, Prod.fst_add, smul_eq_mul]
    have hc2 : c.2 = rc * v.2 + a.2 := by
      rw [hc]; simp [vadd_eq_add, Prod.snd_add, smul_eq_mul]
    rw [hb1, hb2, hc1, hc2]
    ring
  · intro h
    by_cases hba : b = a
    · rw [hba, Set.insert_idem]
      exact collinear_pair ℚ a c
    · rw [collinear_iff_of_mem (Set.mem_insert a {b, c})]
      refine ⟨b - a, fun q hq => ?_⟩
      simp only [Set.mem_insert_iff, Set.mem_singleton_iff] at hq
      rcases hq with rfl | rfl | rfl
      · exact ⟨0, by simp⟩
      · exact ⟨1, by simp⟩
      · by_cases h1 : b.1 - a.1 = 0
        · have hb2 : b.2 - a.2 ≠ 0 := fun h2 =>
            hba (Prod.ext_iff.mpr ⟨by linarith, by linarith⟩)
          have hc1 : q.1 - a.1 = 0 := by
            rcases mul_eq_zero.mp
                (show (q.1 - a.1) * (b.2 - a.2) = 0 by
                  linear_combination -h + (q.2 - a.2) * h1) with h4 | h4
            · exact h4
            · exact absurd h4 hb2
          refine ⟨(q.2 - a.2) / (b.2 - a.2), Prod.ext_iff.mpr ⟨?_, ?_⟩⟩
          · simp only [vadd_eq_add, Prod.fst_add, Prod.smul_fst, Prod.fst_sub,
              smul_eq_mul]
            rw [h1, mul_zero, zero_add]
            linarith
          · simp only [vadd_eq_add, Prod.snd_add, Prod.smul_snd, Prod.snd_sub,
              smul_eq_mul]
            rw [div_mul_cancel₀ _ hb2]
            ring
        · refine ⟨(q.1 - a.1) / (b.1 - a.1), Prod.ext_iff.mpr ⟨?_, ?_⟩⟩
          · simp only [vadd_eq_add, Prod.fst_add, Prod.smul_fst, Prod.fst_sub,
              smul_eq_mul]
            rw [div_mul_cancel₀ _ h1]
            ring
          · simp only [vadd_eq_add, Prod.snd_add, Prod.smul_snd, Prod.snd_sub,
              smul_eq_mul]
            field_simp
            linear_combination h

/-- C4: `area` returns the absolute cross product of the two edge vectors
from vertex 0 — twice the geometric (shoelace) area — and vanishes exactly
when the three vertices are collinear (coincident vertices included). -/
theorem area_cross_product_collinear (t : Triangle2D ℤ) :
    t.area =
        |(t.p1.x - t.p0.x) * (t.p2.y - t.p0.y) -
          (t.p2.x - t.p0.x) * (t.p1.y - t.p0.y)| ∧
      (t.area : ℚ) = 2 * geometricArea t ∧
      (t.area = 0 ↔
        Collinear ℚ ({toPlane t.p0, toPlane t.p1, toPlane t.p2} : Set (ℚ × ℚ))) := by
  refine ⟨rfl, ?_, ?_⟩
  · unfold geometricArea
    rw [Triangle2D.area]
    push_cast
    ring
  · rw [area_eq_abs_signedCross, abs_eq_zero,
      collinear_iff_cross_eq_zero (toPlane t.p0) (toPlane t.p1) (toPlane t.p2)]
    simp only [toPlane]
    rw [show ((t.p1.x : ℚ) - t.p0.x) * ((t.p2.y : ℚ) - t.p0.y) -
        ((t.p2.x : ℚ) - t.p0.x) * ((t.p1.y : ℚ) - t.p0.y) =
        ((signedCross t.p0 t.p1 t.p2 : ℤ) : ℚ) from by push_cast [signedCross]; ring]
    exact Int.cast_eq_zero.symm

/-- The NDC triangle used for the degenerate-rasterization computations
maps, under the identity vertex shader and a `3 × 3` extent, to the
collinear pixel-space triangle `(0,0), (1,1), (2,2)`. -/
lemma degenerate_pixelTriangle_eq :
    pixelTriangle (SwapChain.new 3 3).extent id
        ⟨Vector2.new (-1) (-1), Vector2.new (-1/3) (-1/3), Vector2.new (1/3) (1/3)⟩ =
      Triangle2D.mk (Vector2.new 0 0) (Vector2.new 1 1) (Vector2.new 2 2) := by
  unfold pixelTriangle Extent.vertex_to_pixel roundHalfAway
  norm_num [Vector2.new, Triangle2D.mk.injEq, Vector2.mk.injEq, SwapChain.new]

/-- C1 counterexample: the NDC triangle below maps (under the identity
vertex shader and a `3 × 3` extent) to the collinear pixel-space triangle
`(0,0), (1,1), (2,2)` with zero area, yet `draw_rasterized` performs two
fragment-shader invocations (the counter ends at 2) and writes two pixels,
so the buffer changes — not zero. -/
theorem degenerate_triangle_writes_pixels :
    pixelTriangle (SwapChain.new 3 3).extent id
        ⟨Vector2.new (-1) (-1), Vector2.new (-1/3) (-1/3), Vector2.new (1/3) (1/3)⟩ =
      Triangle2D.mk (Vector2.new 0 0) (Vector2.new 1 1) (Vector2.new 2 2) ∧
    (Triangle2D.mk (Vector2.new 0 0) (Vector2.new 1 1)
      (Vector2.new (2 : ℤ) 2)).area = 0 ∧
    ∃ s', (SwapChain.new 3 3).draw_rasterized
        [⟨Vector2.new (-1) (-1), Vector2.new (-1/3) (-1/3), Vector2.new (1/3) (1/3)⟩]
        id (fun _ => Pixel.RED) 0 = some (s', 2) ∧
      s'.buffer ≠ (SwapChain.new 3 3).buffer := by
  refine ⟨degenerate_pixelTriangle_eq, by decide, ⟨⟨3, 3⟩,
    [Pixel.RED, Pixel.BLACK, Pixel.BLACK,
     Pixel.BLACK, Pixel.RED, Pixel.BLACK,
     Pixel.BLACK, Pixel.BLACK, Pixel.BLACK]⟩, ?_, by decide⟩
  simp only [SwapChain.draw_rasterized, SwapChain.draw_triangle,
    degenerate_pixelTriangle_eq]
  decide

/-- C1 amended: rasterizing the collinear triangle `(0,0),(1,1),(2,2)`
does not fault and touches only the integer points of the half-open
bounding ranges that lie on the degenerate segment: exactly the pixels
`(0,0)` and `(1,1)` receive the fragment color (two fragment invocations);
every other pixel keeps its previous value. -/
theorem degenerate_triangle_raster_result :
    (SwapChain.new 3 3).draw_rasterized
        [⟨Vector2.new (-1) (-1), Vector2.new (-1/3) (-1/3), Vector2.new (1/3) (1/3)⟩]
        id (fun _ => Pixel.RED) 0 =
      some (⟨⟨3, 3⟩,
        [Pixel.RED, Pixel.BLACK, Pixel.BLACK,
         Pixel.BLACK, Pixel.RED, Pixel.BLACK,
         Pixel.BLACK, Pixel.BLACK, Pixel.BLACK]⟩, 2) := by
  simp only [SwapChain.draw_rasterized, SwapChain.draw_triangle,
    degenerate_pixelTriangle_eq]
  decide

/-! ## Last-triangle-wins machinery -/

lemma wf_of_parts {s s' : SwapChain} (hwf : s.wf) (he : s'.extent = s.extent)
    (hl : s'.buffer.length = s.buffer.length) : s'.wf := by
  obtain ⟨hlen, hw, hh⟩ := hwf
  exact ⟨by rw [he, hl, hlen], by rw [he]; exact hw, by rw [he]; exact hh⟩

lemma pixIndex_inj {e : Extent} {p q : Vector2 ℤ}
    (hp : e.containsPoint p = true) (hq : e.containsPoint q = true)
    (h : pixIndex e p = pixIndex e q) : p = q := by
  rw [containsPoint_iff] at hp hq
  obtain ⟨hpx, hpy, hpxw, hpyh⟩ := hp
  obtain ⟨hqx, hqy, hqxw, hqyh⟩ := hq
  unfold pixIndex at h
  have hxw : p.x.toNat < e.width := by omega
  have hxw2 : q.x.toNat < e.width := by omega
  have hmodp : q.x.toNat = p.x.toNat := by
    have h1 := Nat.mul_add_mod e.width p.y.toNat p.x.toNat
    have h2 := Nat.mul_add_mod e.width q.y.toNat q.x.toNat
    have h3 : e.width * p.y.toNat + p.x.toNat = e.width * q.y.toNat + q.x.toNat := by
      rw [Nat.mul_comm e.width p.y.toNat, Nat.mul_comm e.width q.y.toNat]
      exact h
    rw [h3, h2] at h1
    rw [Nat.mod_eq_of_lt hxw, Nat.mod_eq_of_lt hxw2] at h1
    exact h1
  have hw0 : 0 < e.width := by omega
  have hy : p.y.toNat = q.y.toNat := by
    have h2 : p.y.toNat * e.width = q.y.toNat * e.width := by omega
    exact Nat.eq_of_mul_eq_mul_right hw0 h2
  have hx1 : p.x = q.x := by omega
  have hy1 : p.y = q.y := by omega
  cases p with
  | mk px py =>
    cases q with
    | mk qx qy =>
      dsimp only at hx1 hy1
      rw [hx1, hy1]

lemma rasterizePoint_write {s s₁ : SwapChain} {t : Triangle2D ℤ} {frag : ℕ → Pixel}
    {n n₁ : ℕ} {p : Vector2 ℤ} (hwf : s.wf) (hhit : t.hit_test p = true)
    (hin : s.is_point_inside p = true)
    (h : s.rasterizePoint t frag n p = some (s₁, n₁)) :
    s₁ = { s with buffer := s.buffer.set (pixIndex s.extent p) (frag n) } ∧
      n₁ = n + 1 := by
  unfold SwapChain.rasterizePoint at h
  obtain ⟨hlt, hset'⟩ := set_pixel_of_contains hwf hin (frag n)
  rw [hhit, hin] at h
  simp only [if_true] at h
  rw [hset'] at h
  cases h
  exact ⟨rfl, rfl⟩

lemma rasterizePoints_get_untouched {t : Triangle2D ℤ} {frag : ℕ → Pixel}
    {p : Vector2 ℤ} :
    ∀ {pts : List (Vector2 ℤ)} {s s' : SwapChain} {n n' : ℕ},
      s.wf → s.extent.containsPoint p = true →
      (t.hit_test p = false ∨ p ∉ pts) →
      rasterizePoints t frag s n pts = some (s', n') →
      s'.buffer[pixIndex s.extent p]? = s.buffer[pixIndex s.extent p]?
  | [], s, s', n, n', _, _, _, h => by cases h; rfl
  | q :: rest, s, s', n, n', hwf, hcont, hside, h => by
    rw [rasterizePoints] at h
    cases hstep : s.rasterizePoint t frag n q with
    | none =>
      rw [hstep] at h
      exact Option.noConfusion h
    | some pair =>
      obtain ⟨s₁, n₁⟩ := pair
      rw [hstep] at h
      obtain ⟨he₁, hl₁, -⟩ := rasterizePoint_parts hstep
      have hwf₁ : s₁.wf := wf_of_parts hwf he₁ hl₁
      have hcont₁ : s₁.extent.containsPoint p = true := by rw [he₁]; exact hcont
      have hside₁ : t.hit_test p = false ∨ p ∉ rest := by
        rcases hside with hf | hm
        · exact Or.inl hf
        · exact Or.inr fun hmem => hm (List.mem_cons_of_mem _ hmem)
      have hrec := rasterizePoints_get_untouched hwf₁ hcont₁ hside₁ h
      rw [he₁] at hrec
      rw [hrec]
      rcases rasterizePoint_cases hstep with ⟨rfl, -⟩ | ⟨hhit, hin, hset, -⟩
      · rfl
      · have hqp : q ≠ p := by
          rcases hside with hf | hm
          · intro hqp
            rw [hqp, hf] at hhit
            exact Bool.noConfusion hhit
          · intro hqp
            exact hm (hqp ▸ List.mem_cons_self q rest)
        obtain ⟨hlt, hset'⟩ := set_pixel_of_contains hwf hin (frag n)
        rw [hset'] at hset
        cases hset
        apply List.getElem?_set_ne
        intro hidx
        exact hqp (pixIndex_inj hin hcont hidx)

lemma rasterizePoints_get_frag {t : Triangle2D ℤ} {frag : ℕ → Pixel}
    {p : Vector2 ℤ} :
    ∀ {pts : List (Vector2 ℤ)} {s s' : SwapChain} {n n' : ℕ},
      s.wf → s.extent.containsPoint p = true → t.hit_test p = true → p ∈ pts →
      rasterizePoints t frag s n pts = some (s', n') →
      ∃ k, n ≤ k ∧ k < n' ∧ s'.buffer[pixIndex s.extent p]? = some (frag k)
  | [], _, _, _, _, _, _, _, hmem, _ => absurd hmem (List.not_mem_nil _)
  | q :: rest, s, s', n, n', hwf, hcont, hhit, hmem, h => by
    rw [rasterizePoints] at h
    cases hstep : s.rasterizePoint t frag n q with
    | none =>
      rw [hstep] at h
      exact Option.noConfusion h
    | some pair =>
      obtain ⟨s₁, n₁⟩ := pair
      rw [hstep] at h
      obtain ⟨he₁, hl₁, hn₁⟩ := rasterizePoint_parts hstep
      have hwf₁ : s₁.wf := wf_of_parts hwf he₁ hl₁
      have hcont₁ : s₁.extent.containsPoint p = true := by rw [he₁]; exact hcont
      by_cases hqp : p = q
      · subst hqp
        obtain ⟨hrec, rfl⟩ := rasterizePoint_write hwf hhit hcont hstep
        obtain ⟨hlt, -⟩ := set_pixel_of_contains hwf hcont (frag n)
        have hval : s₁.buffer[pixIndex s.extent p]? = some (frag n) := by
          rw [hrec]
          exact List.getElem?_set_self hlt
        by_cases hmem2 : p ∈ rest
        · obtain ⟨k, hk1, hk2, hk3⟩ :=
            rasterizePoints_get_frag hwf₁ hcont₁ hhit hmem2 h
          rw [he₁] at hk3
          exact ⟨k, by omega, hk2, hk3⟩
        · have huntouched :=
            rasterizePoints_get_untouched hwf₁ hcont₁ (Or.inr hmem2) h
          rw [he₁] at huntouched
          obtain ⟨-, -, hmono⟩ := rasterizePoints_parts h
          exact ⟨n, le_rfl, by omega, by rw [huntouched]; exact hval⟩
      · have hmem2 : p ∈ rest := by
          rcases List.mem_cons.mp hmem with h1 | h1
          · exact absurd h1 hqp
          · exact h1
        obtain ⟨k, hk1, hk2, hk3⟩ :=
          rasterizePoints_get_frag hwf₁ hcont₁ hhit hmem2 h
        rw [he₁] at hk3
        exact ⟨k, le_trans hn₁ hk1, hk2, hk3⟩

lemma draw_triangle_get_frag {s s' : SwapChain} {vsh : Vector2 ℚ → Vector2 ℚ}
    {frag : ℕ → Pixel} {n n' : ℕ} {tri : TriangleVertices} {p : Vector2 ℤ}
    (hwf : s.wf) (hprod : producesFragment s.extent vsh tri p)
    (h : s.draw_triangle vsh frag n tri = some (s', n')) :
    ∃ k, n ≤ k ∧ k < n' ∧ s'.buffer[pixIndex s.extent p]? = some (frag k) := by
  obtain ⟨hmem, hhit, hcont⟩ := hprod
  unfold SwapChain.draw_triangle at h
  exact rasterizePoints_get_frag hwf hcont hhit hmem h

lemma draw_triangle_get_untouched {s s' : SwapChain} {vsh : Vector2 ℚ → Vector2 ℚ}
    {frag : ℕ → Pixel} {n n' : ℕ} {tri : TriangleVertices} {p : Vector2 ℤ}
    (hwf : s.wf) (hcont : s.extent.containsPoint p = true)
    (hnprod : ¬ producesFragment s.extent vsh tri p)
    (h : s.draw_triangle vsh frag n tri = some (s', n')) :
    s'.buffer[pixIndex s.extent p]? = s.buffer[pixIndex s.extent p]? := by
  unfold SwapChain.draw_triangle at h
  refine rasterizePoints_get_untouched hwf hcont ?_ h
  rcases Bool.eq_false_or_eq_true ((pixelTriangle s.extent vsh tri).hit_test p) with
    hb | hb
  · exact Or.inr fun hmem => hnprod ⟨hmem, hb, hcont⟩
  · exact Or.inl hb

lemma draw_rasterized_get_untouched {vsh : Vector2 ℚ → Vector2 ℚ}
    {frag : ℕ → Pixel} {p : Vector2 ℤ} :
    ∀ {tris : List TriangleVertices} {s s' : SwapChain} {n n' : ℕ},
      s.wf → s.extent.containsPoint p = true →
      (∀ u ∈ tris, ¬ producesFragment s.extent vsh u p) →
      s.draw_rasterized tris vsh frag n = some (s', n') →
      s'.buffer[pixIndex s.extent p]? = s.buffer[pixIndex s.extent p]?
  | [], s, s', n, n', _, _, _, h => by cases h; rfl
  | tri :: rest, s, s', n, n', hwf, hcont, hnot, h => by
    rw [SwapChain.draw_rasterized] at h
    cases hstep : s.draw_triangle vsh frag n tri with
    | none =>
      rw [hstep] at h
      exact Option.noConfusion h
    | some pair =>
      obtain ⟨s₁, n₁⟩ := pair
      rw [hstep] at h
      obtain ⟨he₁, hl₁, -⟩ := draw_triangle_parts hstep
      have hwf₁ : s₁.wf := wf_of_parts hwf he₁ hl₁
      have hcont₁ : s₁.extent.containsPoint p = true := by rw [he₁]; exact hcont
      have hnot₁ : ∀ u ∈ rest, ¬ producesFragment s₁.extent vsh u p := by
        intro u hu
        rw [he₁]
        exact hnot u (List.mem_cons_of_mem _ hu)
      have hrec := draw_rasterized_get_untouched hwf₁ hcont₁ hnot₁ h
      rw [he₁] at hrec
      rw [hrec]
      exact draw_triangle_get_untouched hwf hcont
        (hnot tri (List.mem_cons_self _ _)) hstep

lemma draw_rasterized_append {vsh : Vector2 ℚ → Vector2 ℚ} {frag : ℕ → Pixel} :
    ∀ (l₁ : List TriangleVertices) {l₂ : List TriangleVertices} {s : SwapChain}
      {n : ℕ},
      SwapChain.draw_rasterized s (l₁ ++ l₂) vsh frag n =
        (match SwapChain.draw_rasterized s l₁ vsh frag n with
          | some (s₁, n₁) => SwapChain.draw_rasterized s₁ l₂ vsh frag n₁
          | none => none)
  | [], l₂, s, n => rfl
  | tri :: rest, l₂, s, n => by
    simp only [List.cons_append, SwapChain.draw_rasterized]
    cases hstep : s.draw_triangle vsh frag n tri with
    | some pair =>
      obtain ⟨s₁, n₁⟩ := pair
      exact draw_rasterized_append rest
    | none => rfl

/-- C6: triangles are processed sequentially in input order; a pixel that
receives a fragment from triangle `tv` and from no later triangle ends up
holding exactly the value written while processing the input prefix ending
at `tv` — a fragment color produced during that prefix ("last triangle
wins", no depth test). -/
theorem draw_rasterized_last_triangle_wins
    (s s' : SwapChain) (vsh : Vector2 ℚ → Vector2 ℚ) (frag : ℕ → Pixel)
    (ts₁ ts₂ : List TriangleVertices) (tv : TriangleVertices)
    (p : Vector2 ℤ) (n n' : ℕ)
    (hwf : s.wf)
    (hdraw : s.draw_rasterized (ts₁ ++ tv :: ts₂) vsh frag n = some (s', n'))
    (hcov : producesFragment s.extent vsh tv p)
    (hnot : ∀ u ∈ ts₂, ¬ producesFragment s.extent vsh u p) :
    ∃ s₁ n₁, s.draw_rasterized (ts₁ ++ [tv]) vsh frag n = some (s₁, n₁) ∧
      s'.buffer[pixIndex s.extent p]? = s₁.buffer[pixIndex s.extent p]? ∧
      ∃ k, k < n₁ ∧ s₁.buffer[pixIndex s.extent p]? = some (frag k) := by
  rw [draw_rasterized_append ts₁] at hdraw
  cases hpre : s.draw_rasterized ts₁ vsh frag n with
  | none =>
    rw [hpre] at hdraw
    exact Option.noConfusion hdraw
  | some pair =>
    obtain ⟨sa, na⟩ := pair
    rw [hpre] at hdraw
    dsimp only at hdraw
    rw [SwapChain.draw_rasterized] at hdraw
    cases htv : sa.draw_triangle vsh frag na tv with
    | none =>
      rw [htv] at hdraw
      exact Option.noConfusion hdraw
    | some pairb =>
      obtain ⟨sb, nb⟩ := pairb
      rw [htv] at hdraw
      obtain ⟨hea, hla, -⟩ := draw_rasterized_parts hpre
      obtain ⟨heb, hlb, -⟩ := draw_triangle_parts htv
      have hwfa : sa.wf := wf_of_parts hwf hea hla
      have hwfb : sb.wf := wf_of_parts hwfa heb hlb
      have hcova : producesFragment sa.extent vsh tv p := by rw [hea]; exact hcov
      have hcontb : sb.extent.containsPoint p = true := by
        rw [heb, hea]
        exact hcov.2.2
      have hnotb : ∀ u ∈ ts₂, ¬ producesFragment sb.extent vsh u p := by
        intro u hu
        rw [heb, hea]
        exact hnot u hu
      obtain ⟨k, -, hk2, hk3⟩ := draw_triangle_get_frag hwfa hcova htv
      rw [hea] at hk3
      have huntouched := draw_rasterized_get_untouched hwfb hcontb hnotb hdraw
      rw [heb, hea] at huntouched
      refine ⟨sb, nb, ?_, huntouched, k, hk2, hk3⟩
      rw [draw_rasterized_append ts₁, hpre]
      dsimp only
      rw [SwapChain.draw_rasterized, htv]
      rfl

/-- Closed instance of `draw_rasterized_last_triangle_wins`: on a `4 × 4`
swap chain, triangle `T1` covers pixel `(0,0)` and the later triangle `T2`
covers only pixel `(2,2)`, so after drawing `[T1, T2]` the pixel `(0,0)`
holds the fragment color produced while processing the prefix `[T1]`. -/
theorem draw_rasterized_last_triangle_wins_witness :
    ∃ s₁ n₁,
      (SwapChain.new 4 4).draw_rasterized
          ([] ++ [⟨Vector2.new (-1) (-1), Vector2.new 0 (-1), Vector2.new (-1) 0⟩])
          id (fun k => Pixel.new k 0 0 0) 0 = some (s₁, n₁) ∧
        (⟨⟨4, 4⟩,
          [Pixel.new 0 0 0 0, Pixel.new 1 0 0 0, Pixel.BLACK, Pixel.BLACK,
           Pixel.new 2 0 0 0, Pixel.new 3 0 0 0, Pixel.BLACK, Pixel.BLACK,
           Pixel.BLACK, Pixel.BLACK, Pixel.BLACK, Pixel.BLACK,
           Pixel.BLACK, Pixel.BLACK, Pixel.BLACK, Pixel.BLACK]⟩ :
            SwapChain).buffer[pixIndex (SwapChain.new 4 4).extent (Vector2.new 0 0)]? =
          s₁.buffer[pixIndex (SwapChain.new 4 4).extent (Vector2.new 0 0)]? ∧
        ∃ k, k < n₁ ∧
          s₁.buffer[pixIndex (SwapChain.new 4 4).extent (Vector2.new 0 0)]? =
            some (Pixel.new k 0 0 0) := by
  have hext1 : (SwapChain.new 4 4).extent = (⟨4, 4⟩ : Extent) := rfl
  have hext2 : ((⟨⟨4, 4⟩,
      [Pixel.new 0 0 0 0, Pixel.new 1 0 0 0, Pixel.BLACK, Pixel.BLACK,
       Pixel.new 2 0 0 0, Pixel.new 3 0 0 0, Pixel.BLACK, Pixel.BLACK,
       Pixel.BLACK, Pixel.BLACK, Pixel.BLACK, Pixel.BLACK,
       Pixel.BLACK, Pixel.BLACK, Pixel.BLACK, Pixel.BLACK]⟩ :
        SwapChain)).extent = (⟨4, 4⟩ : Extent) := rfl
  have hpix1 : pixelTriangle (⟨4, 4⟩ : Extent) id
      ⟨Vector2.new (-1) (-1), Vector2.new 0 (-1), Vector2.new (-1) 0⟩ =
      Triangle2D.mk (Vector2.new 0 0) (Vector2.new 2 0) (Vector2.new 0 2) := by
    unfold pixelTriangle Extent.vertex_to_pixel roundHalfAway
    norm_num [Vector2.new, Triangle2D.mk.injEq, Vector2.mk.injEq]
  have hpix2 : pixelTriangle (⟨4, 4⟩ : Extent) id
      ⟨Vector2.new (1/2) (1/2), Vector2.new 0 (1/2), Vector2.new (1/2) 0⟩ =
      Triangle2D.mk (Vector2.new 3 3) (Vector2.new 2 3) (Vector2.new 3 2) := by
    unfold pixelTriangle Extent.vertex_to_pixel roundHalfAway
    norm_num [Vector2.new, Triangle2D.mk.injEq, Vector2.mk.injEq]
  have h1 : (SwapChain.new 4 4).draw_triangle id (fun k => Pixel.new k 0 0 0) 0
      ⟨Vector2.new (-1) (-1), Vector2.new 0 (-1), Vector2.new (-1) 0⟩ =
      some ((⟨⟨4, 4⟩,
        [Pixel.new 0 0 0 0, Pixel.new 1 0 0 0, Pixel.BLACK, Pixel.BLACK,
         Pixel.new 2 0 0 0, Pixel.new 3 0 0 0, Pixel.BLACK, Pixel.BLACK,
         Pixel.BLACK, Pixel.BLACK, Pixel.BLACK, Pixel.BLACK,
         Pixel.BLACK, Pixel.BLACK, Pixel.BLACK, Pixel.BLACK]⟩ : SwapChain), 4) := by
    simp only [SwapChain.draw_triangle, hext1, hpix1]
    decide
  have h2 : ((⟨⟨4, 4⟩,
      [Pixel.new 0 0 0 0, Pixel.new 1 0 0 0, Pixel.BLACK, Pixel.BLACK,
       Pixel.new 2 0 0 0, Pixel.new 3 0 0 0, Pixel.BLACK, Pixel.BLACK,
       Pixel.BLACK, Pixel.BLACK, Pixel.BLACK, Pixel.BLACK,
       Pixel.BLACK, Pixel.BLACK, Pixel.BLACK, Pixel.BLACK]⟩ :
        SwapChain)).draw_triangle id (fun k => Pixel.new k 0 0 0) 4
      ⟨Vector2.new (1/2) (1/2), Vector2.new 0 (1/2), Vector2.new (1/2) 0⟩ =
      some ((⟨⟨4, 4⟩,
        [Pixel.new 0 0 0 0, Pixel.new 1 0 0 0, Pixel.BLACK, Pixel.BLACK,
         Pixel.new 2 0 0 0, Pixel.new 3 0 0 0, Pixel.BLACK, Pixel.BLACK,
         Pixel.BLACK, Pixel.BLACK, Pixel.BLACK, Pixel.BLACK,
         Pixel.BLACK, Pixel.BLACK, Pixel.BLACK, Pixel.BLACK]⟩ : SwapChain), 4) := by
    simp only [SwapChain.draw_triangle, hext2, hpix2]
    decide
  have hdraw : (SwapChain.new 4 4).draw_rasterized
      ([] ++ (⟨Vector2.new (-1) (-1), Vector2.new 0 (-1), Vector2.new (-1) 0⟩ :
          TriangleVertices) ::
        [⟨Vector2.new (1/2) (1/2), Vector2.new 0 (1/2), Vector2.new (1/2) 0⟩])
      id (fun k => Pixel.new k 0 0 0) 0 =
      some ((⟨⟨4, 4⟩,
        [Pixel.new 0 0 0 0, Pixel.new 1 0 0 0, Pixel.BLACK, Pixel.BLACK,
         Pixel.new 2 0 0 0, Pixel.new 3 0 0 0, Pixel.BLACK, Pixel.BLACK,
         Pixel.BLACK, Pixel.BLACK, Pixel.BLACK, Pixel.BLACK,
         Pixel.BLACK, Pixel.BLACK, Pixel.BLACK, Pixel.BLACK]⟩ : SwapChain), 4) := by
    simp only [List.nil_append, SwapChain.draw_rasterized, h1, h2]
  refine draw_rasterized_last_triangle_wins (SwapChain.new 4 4) _ id
    (fun k => Pixel.new k 0 0 0) []
    [⟨Vector2.new (1/2) (1/2), Vector2.new 0 (1/2), Vector2.new (1/2) 0⟩]
    ⟨Vector2.new (-1) (-1), Vector2.new 0 (-1), Vector2.new (-1) 0⟩
    (Vector2.new 0 0) 0 4 ⟨by decide, by decide, by decide⟩ hdraw ?_ ?_
  · unfold producesFragment
    rw [hext1, hpix1]
    exact ⟨by decide, by decide, by decide⟩
  · intro u hu
    simp only [List.mem_singleton] at hu
    subst hu
    unfold producesFragment
    rw [hext1, hpix2]
    rintro ⟨hmem, -, -⟩
    exact absurd hmem (by decide)

end Raggio
